import Mathlib

/-!
Shallow embedding of the ezStremio search/ranking pipeline
(`src/unnamed/part_000`, `handleStream` and helpers; `src/prehraj.go`,
`filterPrehrajResults` and `normalizeStringForFilter`), with theorems
settling the frozen claims about it.

Go strings are modelled as lists of runes (`List Char`): every string
operation the embedded code performs (`strings.ReplaceAll` with full-rune
patterns, `strings.Contains`, `strings.Fields`, `strings.TrimSpace`,
regexp matching over the patterns appearing in the source) is rune-safe,
so the byte-level and rune-level readings agree on valid UTF-8.
`strings.ToLower` is Unicode-aware; it is threaded through as an explicit
parameter `low : Char → Char` wherever the source calls it.
-/

namespace EzStremio

/-- A Go string, as its sequence of runes. -/
abbrev GoStr := List Char

/-- Rune sequence of a Lean string literal. -/
def str (s : String) : GoStr := s.data

/-- Unicode White_Space property, the class `unicode.IsSpace` reports and
`strings.TrimSpace` / `strings.Fields` split on. -/
def isGoSpace (c : Char) : Bool :=
  let n := c.toNat
  (9 ≤ n && n ≤ 13) || n == 32 || n == 133 || n == 160 || n == 0x1680 ||
    (0x2000 ≤ n && n ≤ 0x200a) || n == 0x2028 || n == 0x2029 ||
    n == 0x202f || n == 0x205f || n == 0x3000

/-- The character class Go's regexp `\s` matches: `[\t\n\f\r ]`. -/
def isRegexSpace (c : Char) : Bool :=
  c == '\t' || c == '\n' || c == '\x0c' || c == '\r' || c == ' '

/-- Go `strings.Contains s sub`. -/
def goContains (s sub : GoStr) : Bool :=
  s.tails.any (fun t => sub.isPrefixOf t)

/-- Scanner of `strings.ReplaceAll` for a non-empty pattern, written with
a rune-count fuel so that it is structurally recursive (and so reduces in
the kernel): every step consumes at least one rune of `s`, so `s.length`
units of fuel always reach the end (`goReplaceAllAux_congr`). -/
def goReplaceAllAux : Nat → GoStr → GoStr → GoStr → GoStr
  | _, [], _, _ => []
  | 0, s, _, _ => s
  | fuel + 1, c :: rest, old, new =>
    if old.isPrefixOf (c :: rest) then
      new ++ goReplaceAllAux fuel ((c :: rest).drop old.length) old new
    else
      c :: goReplaceAllAux fuel rest old new

/-- Go `strings.ReplaceAll s old new`: replaces every non-overlapping
occurrence of `old`, leftmost first. With an empty `old`, Go inserts `new`
before and after every rune. -/
def goReplaceAll (s old new : GoStr) : GoStr :=
  if old = [] then
    new ++ s.flatMap (fun c => c :: new)
  else goReplaceAllAux s.length s old new

theorem goReplaceAllAux_congr (fuel₁ fuel₂ : Nat) (s old new : GoStr)
    (hold : ¬ old = []) (h1 : s.length ≤ fuel₁) (h2 : s.length ≤ fuel₂) :
    goReplaceAllAux fuel₁ s old new = goReplaceAllAux fuel₂ s old new := by
  induction fuel₁ generalizing s fuel₂ with
  | zero =>
    have hs : s = [] := List.length_eq_zero.mp (Nat.le_zero.mp h1)
    subst hs
    cases fuel₂ <;> rfl
  | succ f ih =>
    cases s with
    | nil => cases fuel₂ <;> rfl
    | cons c rest =>
      cases fuel₂ with
      | zero => exact absurd h2 (by simp)
      | succ g =>
        simp only [goReplaceAllAux]
        split
        next hpre =>
          have hop : 0 < old.length := List.length_pos.mpr hold
          have hdrop : ((c :: rest).drop old.length).length ≤ rest.length := by
            simp only [List.length_drop, List.length_cons]
            omega
          have hr : rest.length ≤ f := by
            simp only [List.length_cons] at h1
            omega
          have hg : rest.length ≤ g := by
            simp only [List.length_cons] at h2
            omega
          rw [ih g ((c :: rest).drop old.length) (Nat.le_trans hdrop hr)
            (Nat.le_trans hdrop hg)]
        next =>
          have hr : rest.length ≤ f := by
            simp only [List.length_cons] at h1
            omega
          have hg : rest.length ≤ g := by
            simp only [List.length_cons] at h2
            omega
          rw [ih g rest hr hg]

/-- A table of single-rune replacements applied in order, as the source's
sequence of `strings.ReplaceAll` calls with one-rune patterns. -/
def applyCharRepls (rs : List (Char × Char)) (s : GoStr) : GoStr :=
  rs.foldl (fun acc pr => goReplaceAll acc [pr.1] [pr.2]) s

/-- Scanner of `strings.Split` for a non-empty separator, fuelled by the
rune count as `goReplaceAllAux` is. -/
def goSplitAux : Nat → GoStr → GoStr → List GoStr
  | _, [], _ => [[]]
  | 0, s, _ => [s]
  | fuel + 1, c :: rest, sep =>
    if sep.isPrefixOf (c :: rest) then
      [] :: goSplitAux fuel ((c :: rest).drop sep.length) sep
    else
      match goSplitAux fuel rest sep with
      | [] => [[c]]
      | seg :: segs => (c :: seg) :: segs

/-- Go `strings.Split s sep`: the segments around each non-overlapping
leftmost occurrence of `sep`. With an empty `sep`, Go splits after every
rune. -/
def goSplit (s sep : GoStr) : List GoStr :=
  if sep = [] then s.map (fun c => [c])
  else goSplitAux s.length s sep

/-- Go `strings.TrimSuffix s sfx`: remove one trailing occurrence when
present. -/
def goTrimOneSuffix (s sfx : GoStr) : GoStr :=
  if sfx.isSuffixOf s then s.take (s.length - sfx.length) else s

/-- Go `strings.TrimSpace`. -/
def goTrimSpace (s : GoStr) : GoStr :=
  ((s.dropWhile isGoSpace).reverse.dropWhile isGoSpace).reverse

theorem length_dropWhile_le {α : Type} (p : α → Bool) (l : List α) :
    (l.dropWhile p).length ≤ l.length := by
  induction l with
  | nil => simp
  | cons c rest ih =>
    rw [List.dropWhile_cons]
    split
    · exact Nat.le_succ_of_le ih
    · simp

/-- Scanner of `strings.Fields`, fuelled by the rune count: each step
consumes at least one rune, so `s.length` units always reach the end
(`goFieldsAux_congr`). -/
def goFieldsAux : Nat → GoStr → List GoStr
  | _, [] => []
  | 0, _ => []
  | fuel + 1, c :: rest =>
    if isGoSpace c then goFieldsAux fuel rest
    else
      (c :: rest.takeWhile (fun x => !isGoSpace x)) ::
        goFieldsAux fuel (rest.dropWhile (fun x => !isGoSpace x))

/-- Go `strings.Fields`: the maximal runs of non-space runes. -/
def goFields (s : GoStr) : List GoStr := goFieldsAux s.length s

theorem goFieldsAux_congr (fuel₁ fuel₂ : Nat) (s : GoStr)
    (h1 : s.length ≤ fuel₁) (h2 : s.length ≤ fuel₂) :
    goFieldsAux fuel₁ s = goFieldsAux fuel₂ s := by
  induction fuel₁ generalizing s fuel₂ with
  | zero =>
    have hs : s = [] := List.length_eq_zero.mp (Nat.le_zero.mp h1)
    subst hs
    cases fuel₂ <;> rfl
  | succ f ih =>
    cases s with
    | nil => cases fuel₂ <;> rfl
    | cons c rest =>
      cases fuel₂ with
      | zero => exact absurd h2 (by simp)
      | succ g =>
        have hr : rest.length ≤ f := by
          simp only [List.length_cons] at h1
          omega
        have hg : rest.length ≤ g := by
          simp only [List.length_cons] at h2
          omega
        have hd := length_dropWhile_le (fun x => !isGoSpace x) rest
        simp only [goFieldsAux]
        split
        · exact ih g rest hr hg
        · rw [ih g (rest.dropWhile (fun x => !isGoSpace x))
            (Nat.le_trans hd hr) (Nat.le_trans hd hg)]

theorem goFields_nil : goFields [] = [] := rfl

theorem goFields_cons_space (c : Char) (rest : GoStr) (hc : isGoSpace c = true) :
    goFields (c :: rest) = goFields rest := by
  simp only [goFields, List.length_cons, goFieldsAux, hc, if_pos]

theorem goFields_cons_word (c : Char) (rest : GoStr) (hc : isGoSpace c = false) :
    goFields (c :: rest) =
      (c :: rest.takeWhile (fun x => !isGoSpace x)) ::
        goFields (rest.dropWhile (fun x => !isGoSpace x)) := by
  have hd := length_dropWhile_le (fun x => !isGoSpace x) rest
  simp only [goFields, List.length_cons, goFieldsAux, hc]
  rw [if_neg Bool.false_ne_true]
  rw [goFieldsAux_congr rest.length (rest.dropWhile (fun x => !isGoSpace x)).length
    (rest.dropWhile (fun x => !isGoSpace x)) hd (Nat.le_refl _)]

/-- Go `strings.Join`. -/
def goJoin (sep : GoStr) : List GoStr → GoStr
  | [] => []
  | [w] => w
  | w :: rest => w ++ sep ++ goJoin sep rest

/-- Decimal digits of a natural number, fuelled by the number itself
(which always bounds its digit count). -/
def natDigitsAux : Nat → Nat → GoStr
  | 0, n => [Char.ofNat (48 + n % 10)]
  | fuel + 1, n =>
    if n < 10 then [Char.ofNat (48 + n)]
    else natDigitsAux fuel (n / 10) ++ [Char.ofNat (48 + n % 10)]

/-- Decimal digits of a natural number. -/
def natDigits (n : Nat) : GoStr := natDigitsAux n n

/-- Decimal form of an integer, with a leading minus sign when negative. -/
def intDecimal (i : Int) : GoStr :=
  if i < 0 then '-' :: natDigits i.natAbs else natDigits i.toNat

/-- Go `fmt.Sprintf "%02d"`: zero-pad the decimal form to width 2 (the sign
counts toward the width). -/
def pad2 (i : Int) : GoStr :=
  let s := intDecimal i
  if s.length < 2 then '0' :: s else s

/-- Value of a digit string. -/
def digitsVal (ds : GoStr) : Nat :=
  ds.foldl (fun a c => a * 10 + (c.toNat - 48)) 0

/-- Go `strconv.Atoi` magnitude step: on overflow of int64 the clamped
value is returned together with a range error. -/
def goAtoiCore (neg : Bool) (ds : GoStr) : Int × Bool :=
  if (!ds.isEmpty && ds.all Char.isDigit) = true then
    let v : Int := (digitsVal ds : Int)
    if neg then
      if v ≤ 9223372036854775808 then (-v, true)
      else (-9223372036854775808, false)
    else
      if v ≤ 9223372036854775807 then (v, true)
      else (9223372036854775807, false)
  else (0, false)

/-- Go `strconv.Atoi`: (value, err == nil). A syntax error yields value 0;
a range error yields the clamped int64 value. -/
def goAtoiR (s : GoStr) : Int × Bool :=
  match s with
  | '+' :: rest => goAtoiCore false rest
  | '-' :: rest => goAtoiCore true rest
  | _ => goAtoiCore false s

/-- Go `strconv.Atoi` with the error discarded, as `v, _ := strconv.Atoi(s)`. -/
def goAtoi (s : GoStr) : Int := (goAtoiR s).1

/-- One raw search hit from Prehraj.to (`PrehrajResult` in `prehraj.go`). -/
structure PrehrajResult where
  Title : GoStr
  Duration : GoStr
  Size : GoStr
  URL : GoStr
deriving DecidableEq, Repr

/-- One stream source (`Stream` in `part_000`). -/
structure Stream where
  Name : GoStr
  Title : GoStr
  URL : GoStr
deriving DecidableEq, Repr

/-- The title context `handleStream` works from: `meta.Name`,
`meta.OriginalName`, `meta.Year` and the `season`/`episode` path parts. -/
structure TitleContext where
  name : GoStr
  originalName : GoStr
  year : GoStr
  season : GoStr
  episode : GoStr
deriving DecidableEq, Repr

/-! ### `normalizeStringForFilter` (prehraj.go) -/

/-- The replacement table of `normalizeStringForFilter`, in source order:
lowercase Czech/Slovak diacritics folded to ASCII, then `.`, `_`, `-`, `:`
to a space. Each entry is a single rune, so each `strings.ReplaceAll` call
rewrites exactly the occurrences of that rune. -/
def filterRepls : List (Char × Char) :=
  [('á', 'a'), ('č', 'c'), ('ď', 'd'), ('é', 'e'), ('ě', 'e'),
   ('í', 'i'), ('ň', 'n'), ('ó', 'o'), ('ř', 'r'), ('š', 's'),
   ('ť', 't'), ('ú', 'u'), ('ů', 'u'), ('ý', 'y'), ('ž', 'z'),
   ('.', ' '), ('_', ' '), ('-', ' '), (':', ' ')]

/-- Go `normalizeStringForFilter` (prehraj.go): lowercase, fold the
diacritic/punctuation table, split into fields and re-join with single
spaces. `low` stands for the rune map of Go's Unicode `strings.ToLower`. -/
def normalizeStringForFilter (low : Char → Char) (s : GoStr) : GoStr :=
  goJoin (str " ") (goFields (applyCharRepls filterRepls (s.map low)))

/-! ### The year filter (prehraj.go, `filterPrehrajResults`) -/

/-- A word rune for Go's regexp ASCII `\b`: `[0-9A-Za-z_]`. -/
def isWordChar (c : Char) : Bool :=
  c.isDigit || ('a' ≤ c && c ≤ 'z') || ('A' ≤ c && c ≤ 'Z') || c == '_'

/-- Does `\b(19|20)\d{2}\b` match at the head of `d1 :: rest1` (the left
boundary having been checked by the caller)? -/
def yearHeadOk (d1 : Char) (rest1 : GoStr) : Bool :=
  match rest1 with
  | d2 :: d3 :: d4 :: tail =>
    ((d1 == '1' && d2 == '9') || (d1 == '2' && d2 == '0')) &&
      d3.isDigit && d4.isDigit &&
      (match tail.head? with
       | some c => !isWordChar c
       | none => true)
  | _ => false

/-- Scan for all non-overlapping leftmost matches of `\b(19|20)\d{2}\b`,
as Go's `FindAllString`. The flag records whether the previous rune was a
word rune (so no `\b` holds here). After a match the scan resumes past it;
the rune before the resume point is a digit, hence a word rune. -/
def yearTokensAux : Bool → GoStr → List GoStr
  | _, [] => []
  | prevWord, d1 :: d2 :: d3 :: d4 :: tail =>
    if !prevWord && yearHeadOk d1 (d2 :: d3 :: d4 :: tail) then
      [d1, d2, d3, d4] :: yearTokensAux true tail
    else
      yearTokensAux (isWordChar d1) (d2 :: d3 :: d4 :: tail)
  | _, d1 :: rest => yearTokensAux (isWordChar d1) rest

/-- All `\b(19|20)\d{2}\b` tokens of a title, in order
(`yearReg.FindAllString(res.Title, -1)`). -/
def yearTokens (s : GoStr) : List GoStr := yearTokensAux false s

/-- The target year `filterPrehrajResults` compares against:
`targetYear := 0; if metaYear != "" { targetYear, _ = strconv.Atoi(metaYear) }`. -/
def targetYearOf (metaYear : GoStr) : Int :=
  if metaYear = [] then 0 else goAtoi metaYear

/-- The year check of `filterPrehrajResults`: with a positive target year,
a title carrying year tokens passes only when one token's numeric value is
the target; a title with no token always passes. -/
def yearKeep (metaYear : GoStr) (title : GoStr) : Bool :=
  let t := targetYearOf metaYear
  if 0 < t then
    let ds := yearTokens title
    if ds.isEmpty then true
    else ds.any (fun y => goAtoi y == t)
  else true

/-- The name-relevance containment check of `filterPrehrajResults`:
normalized candidate title contains some normalized context name. The
source computes this but its `if !matchFound` branch is empty. -/
def nameRelevant (low : Char → Char) (metaNames : List GoStr) (title : GoStr) : Bool :=
  metaNames.any (fun name =>
    goContains (normalizeStringForFilter low title) (normalizeStringForFilter low name))

/-- Go `filterPrehrajResults` (prehraj.go): the year check decides; the
relevance check is computed and discarded (its rejection branch is empty in
the source), so every year-passing candidate is appended in input order. -/
def filterPrehrajResults (low : Char → Char) (results : List PrehrajResult)
    (metaYear : GoStr) (metaNames : List GoStr) : List PrehrajResult :=
  results.filter fun res =>
    if yearKeep metaYear res.Title then
      have _matchFound : Bool :=
        if metaNames.isEmpty then true else nameRelevant low metaNames res.Title
      true
    else false

/-! ### `normalizeString` (part_000) and the query expander of `handleStream` -/

theorem goReplaceAll_nil (old new : GoStr) (h : ¬ old = []) :
    goReplaceAll [] old new = [] := by
  simp [goReplaceAll, h, goReplaceAllAux]

theorem goReplaceAll_cons_pos (c : Char) (rest old new : GoStr) (h : ¬ old = [])
    (hpre : old.isPrefixOf (c :: rest) = true) :
    goReplaceAll (c :: rest) old new =
      new ++ goReplaceAll ((c :: rest).drop old.length) old new := by
  have hop : 0 < old.length := List.length_pos.mpr h
  have hdrop : ((c :: rest).drop old.length).length ≤ rest.length := by
    simp only [List.length_drop, List.length_cons]
    omega
  simp only [goReplaceAll, if_neg h, List.length_cons, goReplaceAllAux, hpre, if_pos]
  rw [goReplaceAllAux_congr rest.length ((c :: rest).drop old.length).length
    ((c :: rest).drop old.length) old new h hdrop (Nat.le_refl _)]

theorem goReplaceAll_cons_neg (c : Char) (rest old new : GoStr) (h : ¬ old = [])
    (hpre : ¬ old.isPrefixOf (c :: rest) = true) :
    goReplaceAll (c :: rest) old new = c :: goReplaceAll rest old new := by
  simp only [goReplaceAll, if_neg h, List.length_cons, goReplaceAllAux]
  rw [if_neg hpre]

theorem goContains_cons (c : Char) (rest old : GoStr) :
    goContains (c :: rest) old =
      (old.isPrefixOf (c :: rest) || goContains rest old) := by
  simp [goContains, List.tails]

theorem goReplaceAll_length_le (s old new : GoStr) (hold : ¬ old = [])
    (hnew : new.length ≤ old.length) :
    (goReplaceAll s old new).length ≤ s.length := by
  match s with
  | [] => rw [goReplaceAll_nil old new hold]
  | c :: rest =>
    by_cases hpre : old.isPrefixOf (c :: rest) = true
    · rw [goReplaceAll_cons_pos c rest old new hold hpre]
      have hrec := goReplaceAll_length_le ((c :: rest).drop old.length) old new hold hnew
      have hl : old.length ≤ (c :: rest).length :=
        (List.isPrefixOf_iff_prefix.mp hpre).length_le
      simp only [List.length_append, List.length_drop, List.length_cons] at *
      omega
    · rw [goReplaceAll_cons_neg c rest old new hold hpre]
      have hrec := goReplaceAll_length_le rest old new hold hnew
      simp only [List.length_cons]
      omega
termination_by s.length
decreasing_by
  · have hlen : 0 < old.length := List.length_pos.mpr hold
    simp only [List.length_drop, List.length_cons]
    omega
  · simp only [List.length_cons]
    omega

theorem goReplaceAll_length_lt (s old new : GoStr) (hold : ¬ old = [])
    (hnew : new.length < old.length) (hc : goContains s old = true) :
    (goReplaceAll s old new).length < s.length := by
  match s with
  | [] =>
    exfalso
    simp [goContains, List.tails, List.isPrefixOf_iff_prefix] at hc
    exact hold hc
  | c :: rest =>
    by_cases hpre : old.isPrefixOf (c :: rest) = true
    · rw [goReplaceAll_cons_pos c rest old new hold hpre]
      have hrec := goReplaceAll_length_le ((c :: rest).drop old.length) old new hold
        (Nat.le_of_lt hnew)
      have hl : old.length ≤ (c :: rest).length :=
        (List.isPrefixOf_iff_prefix.mp hpre).length_le
      simp only [List.length_append, List.length_drop, List.length_cons] at *
      omega
    · rw [goReplaceAll_cons_neg c rest old new hold hpre]
      have hc' : goContains rest old = true := by
        rw [goContains_cons] at hc
        simpa [hpre] using hc
      have hrec := goReplaceAll_length_lt rest old new hold hnew hc'
      simp only [List.length_cons]
      omega
termination_by s.length
decreasing_by
  simp only [List.length_cons]
  omega

/-- The `for strings.Contains(s, "  ")` loop of `normalizeString`,
fuelled by the rune count: every iteration that fires shortens the string
(`goReplaceAll_length_lt`), so `s.length` iterations always reach the
fixed point (`collapseSpacesAux_fixed`). -/
def collapseSpacesAux : Nat → GoStr → GoStr
  | 0, s => s
  | fuel + 1, s =>
    if goContains s (str "  ") = true then
      collapseSpacesAux fuel (goReplaceAll s (str "  ") (str " "))
    else s

/-- The double-space collapse loop of `normalizeString`. -/
def collapseSpaces (s : GoStr) : GoStr := collapseSpacesAux s.length s

theorem collapseSpacesAux_fixed (fuel : Nat) (s : GoStr) (hf : s.length ≤ fuel) :
    goContains (collapseSpacesAux fuel s) (str "  ") = false := by
  induction fuel generalizing s with
  | zero =>
    have hs : s = [] := List.length_eq_zero.mp (Nat.le_zero.mp hf)
    subst hs
    rfl
  | succ f ih =>
    simp only [collapseSpacesAux]
    split
    next hc =>
      refine ih (goReplaceAll s (str "  ") (str " ")) ?_
      have := goReplaceAll_length_lt s (str "  ") (str " ")
        (by simp [str]) (by simp [str]) hc
      omega
    next hc => exact Bool.of_not_eq_true hc

/-- The double-space loop always reaches its fixed point within the fuel. -/
theorem collapseSpaces_fixed (s : GoStr) :
    goContains (collapseSpaces s) (str "  ") = false :=
  collapseSpacesAux_fixed s.length s (Nat.le_refl _)

/-- The replacement table of `normalizeString` (part_000), in source order:
both cases of the Czech/Slovak diacritics, then `:`, `-`, `.` to a space. -/
def normalizeRepls : List (Char × Char) :=
  [('á', 'a'), ('č', 'c'), ('ď', 'd'), ('é', 'e'), ('ě', 'e'),
   ('í', 'i'), ('ň', 'n'), ('ó', 'o'), ('ř', 'r'), ('š', 's'),
   ('ť', 't'), ('ú', 'u'), ('ů', 'u'), ('ý', 'y'), ('ž', 'z'),
   ('Á', 'A'), ('Č', 'C'), ('Ď', 'D'), ('É', 'E'), ('Ě', 'E'),
   ('Í', 'I'), ('Ň', 'N'), ('Ó', 'O'), ('Ř', 'R'), ('Š', 'S'),
   ('Ť', 'T'), ('Ú', 'U'), ('Ů', 'U'), ('Ý', 'Y'), ('Ž', 'Z'),
   (':', ' '), ('-', ' '), ('.', ' ')]

/-- Go `normalizeString` (part_000): fold the table, collapse double
spaces, trim. -/
def normalizeString (s : GoStr) : GoStr :=
  goTrimSpace (collapseSpaces (applyCharRepls normalizeRepls s))

/-- The `addVariations` closure of `handleStream`: the raw name, the
normalized name when it differs, and the colon-to-space form when the name
contains a colon. -/
def addVariations (name : GoStr) : List GoStr :=
  [name] ++
    (if normalizeString name ≠ name then [normalizeString name] else []) ++
    (if goContains name (str ":") then [goReplaceAll name (str ":") (str " ")] else [])

/-- The base query list of `handleStream`: variations of `meta.Name`, then
of `meta.OriginalName` when it is non-empty and differs. -/
def nameQueries (tc : TitleContext) : List GoStr :=
  addVariations tc.name ++
    (if tc.originalName ≠ [] ∧ tc.originalName ≠ tc.name then addVariations tc.originalName
     else [])

/-- The `years` slice of `handleStream`: empty, or the one `meta.Year`. -/
def yearsList (y : GoStr) : List GoStr := if y = [] then [] else [y]

/-- The season/episode suffix: `" S%02dE%02d"` when both path parts are
non-empty (their `strconv.Atoi` errors are discarded), else empty. -/
def seSuffix (season episode : GoStr) : GoStr :=
  if season ≠ [] ∧ episode ≠ [] then
    str " S" ++ pad2 (goAtoi season) ++ str "E" ++ pad2 (goAtoi episode)
  else []

/-- The `finalQueries` slice of `handleStream`: for each base query, the
query with the suffix, then one with each year inserted before the suffix
(`fmt.Sprintf("%s %s%s", q, y, suffix)`). -/
def finalQueries (tc : TitleContext) : List GoStr :=
  (nameQueries tc).flatMap fun q =>
    (q ++ seSuffix tc.season tc.episode) ::
      (yearsList tc.year).map (fun y => q ++ str " " ++ y ++ seSuffix tc.season tc.episode)

/-- The dedup loop of `handleStream`: trim each query; keep it when it is
non-empty and unseen. -/
def dedupQueriesAux (seen : List GoStr) : List GoStr → List GoStr
  | [] => []
  | q :: rest =>
    if goTrimSpace q ∈ seen ∨ goTrimSpace q = [] then dedupQueriesAux seen rest
    else goTrimSpace q :: dedupQueriesAux (goTrimSpace q :: seen) rest

/-- The `dedupedQueries` slice of `handleStream`: the expander's output. -/
def dedupedQueries (tc : TitleContext) : List GoStr :=
  dedupQueriesAux [] (finalQueries tc)

/-- First-occurrence dedup of an already-trimmed list, dropping empties:
the spec-side description of the dedup loop. -/
def dedupKeepFirst (seen : List GoStr) : List GoStr → List GoStr
  | [] => []
  | q :: rest =>
    if q ∈ seen ∨ q = [] then dedupKeepFirst seen rest
    else q :: dedupKeepFirst (q :: seen) rest

/-- Modelled from the spec's words (§4.1, claim C6), for comparison with
the source-derived `finalQueries`: per variant, one query for the
applicable suffix case (the suffix being `" S{season:02}E{episode:02}"`
when both season and episode are present, otherwise none), and — when the
year is non-empty — additionally the with-year form, the year fragment
`" {year}"` standing before the suffix. -/
def specFormQueries (tc : TitleContext) : List GoStr :=
  (nameQueries tc).flatMap fun v =>
    let sfx : GoStr :=
      if tc.season ≠ [] ∧ tc.episode ≠ [] then
        str " S" ++ pad2 (goAtoi tc.season) ++ str "E" ++ pad2 (goAtoi tc.episode)
      else []
    (v ++ sfx) :: (if tc.year ≠ [] then [v ++ str " " ++ tc.year ++ sfx] else [])

/-! ### Dedup by URL, extraction cap and merge (part_000, `handleStream`) -/

/-- The dedup loop of `handleStream`: `uniqueResults` keyed by the exact
`URL` string, `orderedUniqueResults` keeping each first occurrence. -/
def dedupByURLAux (seen : List GoStr) : List PrehrajResult → List PrehrajResult
  | [] => []
  | r :: rest =>
    if r.URL ∈ seen then dedupByURLAux seen rest
    else r :: dedupByURLAux (r.URL :: seen) rest

/-- The `orderedUniqueResults` slice of `handleStream`. -/
def dedupByURL (l : List PrehrajResult) : List PrehrajResult := dedupByURLAux [] l

/-- The extraction cap: `limit := 25; if len(orderedUniqueResults) < limit
{ limit = len(orderedUniqueResults) }`. -/
def extractionLimit (l : List PrehrajResult) : Nat :=
  if l.length < 25 then l.length else 25

/-- The candidates handed to the extraction goroutines: indices
`0 ≤ i < limit` of the deduplicated list. -/
def submittedForExtraction (l : List PrehrajResult) : List PrehrajResult :=
  l.take (extractionLimit l)

/-- The per-stream rewriting inside the extraction loop of `handleStream`:
parse the source resolution out of `s.Name` (the text after `"Source:"`,
trimmed, with a trailing `)` removed), rebuild the display name from the
label, and compose the three-line description. -/
def composeStream (res : PrehrajResult) (s : Stream) : Stream :=
  let sourceRes : GoStr :=
    if goContains s.Name (str "Source:") then
      let parts := goSplit s.Name (str "Source:")
      if parts.length > 1 then
        goTrimOneSuffix (goTrimSpace ((parts.get? 1).getD [])) (str ")")
      else []
    else []
  let label := s.Title
  let name' := str "Prehraj.to ⚡ " ++ label
  let desc := str "📂 " ++ res.Title ++ str "\n💾 " ++ res.Size ++
    str " • ⏱️ " ++ res.Duration
  let desc' :=
    if sourceRes ≠ [] then
      let displaySource :=
        if goContains sourceRes (str "3840") || goContains sourceRes (str "2160") then
          str "4K"
        else if goContains sourceRes (str "1920") || goContains sourceRes (str "1080") then
          str "1080p"
        else sourceRes
      desc ++ str "\n⚙️ Source: " ++ displaySource
    else desc
  { Name := name', Title := desc', URL := s.URL }

/-- The `names` slice passed to `filterPrehrajResults`. -/
def pipelineNames (metaName metaOrigName : GoStr) : List GoStr :=
  [metaName] ++
    (if metaOrigName ≠ [] ∧ metaOrigName ≠ metaName then [metaOrigName] else [])

/-- The extraction stage: for each submitted candidate, the extractor's
streams (when it returned without error and non-empty) rewritten by
`composeStream`. Go runs these goroutines concurrently and appends under a
mutex; this model fixes the program order of the submitted list, which
claim C9 uses only in the case where the list is empty (every interleaving
then yields the same empty result). -/
def preSortStreams (extract : GoStr → Option (List Stream))
    (candidates : List PrehrajResult) : List Stream :=
  (submittedForExtraction candidates).flatMap fun res =>
    match extract res.URL with
    | some ss => if ss.isEmpty then [] else ss.map (composeStream res)
    | none => []

/-- The `handleStream` pipeline up to (not including) the final sort:
expand queries, run the searches (modelled in program order; a failing
search contributes nothing), filter, dedup by URL, cap at 25 and extract.
The function is total: the pipeline has no error path after the metadata
fetch — the worst case is an empty list. -/
def pipelinePreSort (search : GoStr → Option (List PrehrajResult))
    (extract : GoStr → Option (List Stream)) (low : Char → Char)
    (tc : TitleContext) : List Stream :=
  let queries := dedupedQueries tc
  let allResults := queries.flatMap fun q => (search q).getD []
  let filtered := filterPrehrajResults low allResults tc.year
    (pipelineNames tc.name tc.originalName)
  preSortStreams extract (dedupByURL filtered)

/-! ### The ranking comparator (part_000, `sort.Slice` closure)

The four key extractors model the source's regexps over Go's
leftmost-first (Perl-preference) matching semantics:
`reSourceRes4K = Source:\s*4K`, `reSourceRes1080 = Source:\s*1080p`,
`reSourceResRaw = Source:.*x\s*(\d+)` (where `.` excludes the newline and
a greedy `.*` selects the last viable `x` of the line),
`reStreamRes = ⚡\s+(\d{3,4})p` and
`reSize = 💾\s*(\d+(?:\.\d+)?)\s*(GB|MB|kB)`. -/

/-- Does `Source:\s*lit` match at the head of `t`? Since `lit` starts with
no `\s` rune, the greedy/backtracking choices of `\s*` collapse to
skipping every space. -/
def sourceLitHere (lit : GoStr) (t : GoStr) : Bool :=
  (str "Source:").isPrefixOf t &&
    lit.isPrefixOf ((t.drop 7).dropWhile isRegexSpace)

/-- Go `MatchString` for `Source:\s*lit`: a match at some position. -/
def matchesSourceLit (lit : GoStr) (t : GoStr) : Bool :=
  t.tails.any (sourceLitHere lit)

/-- After the `x` of `Source:.*x\s*(\d+)`: the digit capture, when the
spaces are followed by at least one digit. -/
def digitsAfterX (after : GoStr) : Option GoStr :=
  let ds := (after.dropWhile isRegexSpace).takeWhile Char.isDigit
  if ds.isEmpty then none else some ds

/-- The capture of `Source:.*x\s*(\d+)` anchored at the head of `t`: `.`
does not cross the newline, and the greedy `.*` picks the last `x` of the
line from which the rest matches. -/
def rawSourceHere (t : GoStr) : Option GoStr :=
  if (str "Source:").isPrefixOf t then
    let rest := t.drop 7
    let line := rest.takeWhile (fun c => c ≠ '\n')
    (((List.range line.length).filter (fun j => line.get? j = some 'x')).reverse).findSome?
      (fun j => digitsAfterX (rest.drop (j + 1)))
  else none

/-- Go `FindStringSubmatch` capture of `reSourceResRaw`: leftmost start. -/
def rawSourceDigits (t : GoStr) : Option GoStr :=
  t.tails.findSome? rawSourceHere

/-- The `getRes` closure of `handleStream` (the `name` argument is unused
in the source too). The raw capture's `strconv.Atoi` is used only when its
error is nil. -/
def getRes (_name title : GoStr) : Int :=
  if matchesSourceLit (str "4K") title then 2160
  else if matchesSourceLit (str "1080p") title then 1080
  else
    match rawSourceDigits title with
    | some ds => if (goAtoiR ds).2 then (goAtoiR ds).1 else 0
    | none => 0

/-- A match of `⚡\s+(\d{3,4})p` anchored at the head of `t`: one or more
spaces, then a maximal digit run of length 3 or 4 followed by `p` (a run
of 5 or more digits admits no backtracking match, and fewer spaces than
the maximum leave a non-digit under `\d`). -/
def streamResHere (t : GoStr) : Option GoStr :=
  match t with
  | '⚡' :: r =>
    let sp := r.takeWhile isRegexSpace
    if sp.isEmpty then none
    else
      let afterSp := r.drop sp.length
      let ds := afterSp.takeWhile Char.isDigit
      if (ds.length = 3 ∨ ds.length = 4) ∧ (afterSp.drop ds.length).head? = some 'p' then
        some ds
      else none
  | _ => none

/-- The `getStreamRes` closure of `handleStream`. -/
def getStreamRes (name : GoStr) : Int :=
  match name.tails.findSome? streamResHere with
  | some ds => if (goAtoiR ds).2 then (goAtoiR ds).1 else 0
  | none => 0

/-- The unit capture `(GB|MB|kB)` after skipping `\s*`, alternation tried
left to right. -/
def unitHere (t : GoStr) : Option GoStr :=
  let u := t.dropWhile isRegexSpace
  if (str "GB").isPrefixOf u then some (str "GB")
  else if (str "MB").isPrefixOf u then some (str "MB")
  else if (str "kB").isPrefixOf u then some (str "kB")
  else none

/-- A match of `💾\s*(\d+(?:\.\d+)?)\s*(GB|MB|kB)` anchored at the head of
`t`: (integer digits, fraction digits — empty when the optional group is
absent, unit). The greedy fraction branch is tried first; when its unit
fails, the fraction-free branch is the only backtracking alternative. -/
def sizeHere (t : GoStr) : Option (GoStr × GoStr × GoStr) :=
  match t with
  | '💾' :: r =>
    let afterSp := r.dropWhile isRegexSpace
    let d := afterSp.takeWhile Char.isDigit
    if d.isEmpty then none
    else
      let afterD := afterSp.drop d.length
      let withFrac : Option (GoStr × GoStr × GoStr) :=
        match afterD with
        | '.' :: t2 =>
          let f := t2.takeWhile Char.isDigit
          if f.isEmpty then none
          else (unitHere (t2.drop f.length)).map (fun u => (d, f, u))
        | _ => none
      match withFrac with
      | some pr => some pr
      | none => (unitHere afterD).map (fun u => (d, [], u))
  | _ => none

/-- The `getSize` closure of `handleStream`, in megabytes. The source
parses the capture with `strconv.ParseFloat` into a float64 and scales in
float64; the model computes the exact rational value (scaling by 1024 is
exact in float64, so the two differ only when a decimal capture exceeds
float64 precision). -/
def getSize (title : GoStr) : ℚ :=
  match title.tails.findSome? sizeHere with
  | some (d, f, u) =>
    let val : ℚ := (digitsVal d : ℚ) + (digitsVal f : ℚ) / (10 : ℚ) ^ f.length
    if u = str "GB" then val * 1024
    else if u = str "MB" then val
    else if u = str "kB" then val / 1024
    else 0
  | none => 0

/-- The `sort.Slice` comparator of `handleStream`: source resolution, then
stream resolution, then size, then year containment in the description. -/
def streamLess (metaYear : GoStr) (a b : Stream) : Bool :=
  let srcResI := getRes a.Name a.Title
  let srcResJ := getRes b.Name b.Title
  if srcResI ≠ srcResJ then decide (srcResI > srcResJ)
  else
    let strmResI := getStreamRes a.Name
    let strmResJ := getStreamRes b.Name
    if strmResI ≠ strmResJ then decide (strmResI > strmResJ)
    else
      let sizeI := getSize a.Title
      let sizeJ := getSize b.Title
      if sizeI ≠ sizeJ then decide (sizeI > sizeJ)
      else
        let hasYearI := goContains a.Title metaYear
        let hasYearJ := goContains b.Title metaYear
        if hasYearI ≠ hasYearJ then hasYearI
        else false

/-- The four ranking keys of a stream, in comparator order. -/
def rankKey (metaYear : GoStr) (s : Stream) : Int × Int × ℚ × Bool :=
  (getRes s.Name s.Title, getStreamRes s.Name, getSize s.Title,
    goContains s.Title metaYear)

/-- Strict descending lexicographic order on the key tuples (`true`
ranking before `false` on the year flag). -/
def rankLexBefore (k l : Int × Int × ℚ × Bool) : Prop :=
  k.1 > l.1 ∨ (k.1 = l.1 ∧
    (k.2.1 > l.2.1 ∨ (k.2.1 = l.2.1 ∧
      (k.2.2.1 > l.2.2.1 ∨ (k.2.2.1 = l.2.2.1 ∧
        (k.2.2.2 = true ∧ l.2.2.2 = false))))))

/-! ## Helper lemmas -/

theorem filterPrehraj_eq_yearFilter (low : Char → Char) (results : List PrehrajResult)
    (metaYear : GoStr) (metaNames : List GoStr) :
    filterPrehrajResults low results metaYear metaNames =
      results.filter fun res => yearKeep metaYear res.Title := by
  unfold filterPrehrajResults
  congr 1
  funext res
  cases h : yearKeep metaYear res.Title <;> simp [h]

theorem dedupByURLAux_sublist (seen : List GoStr) (l : List PrehrajResult) :
    List.Sublist (dedupByURLAux seen l) l := by
  induction l generalizing seen with
  | nil => simp [dedupByURLAux]
  | cons r rest ih =>
    simp only [dedupByURLAux]
    split
    · exact List.Sublist.cons r (ih seen)
    · exact List.Sublist.cons₂ r (ih _)

theorem dedupByURLAux_count (seen : List GoStr) (l : List PrehrajResult) (u : GoStr) :
    ((dedupByURLAux seen l).map PrehrajResult.URL).count u =
      if u ∈ seen then 0 else min 1 ((l.map PrehrajResult.URL).count u) := by
  induction l generalizing seen with
  | nil => by_cases hu : u ∈ seen <;> simp [dedupByURLAux, hu]
  | cons r rest ih =>
    simp only [dedupByURLAux]
    split
    next hseen =>
      rw [ih seen]
      by_cases hu : u ∈ seen
      · simp [hu]
      · have hne : ¬ r.URL = u := fun he => hu (by rw [← he]; exact hseen)
        simp [hu, List.count_cons, hne]
    next hseen =>
      by_cases hu : u ∈ seen
      · have hne : ¬ r.URL = u := fun he => hseen (by rw [he]; exact hu)
        simp only [List.map_cons, List.count_cons]
        rw [ih (r.URL :: seen)]
        have hu' : u ∈ r.URL :: seen := List.mem_cons_of_mem _ hu
        simp [hu, hu', hne]
      · by_cases hur : u = r.URL
        · simp only [List.map_cons, List.count_cons]
          rw [ih (r.URL :: seen)]
          have hu' : u ∈ r.URL :: seen := by rw [hur]; exact List.mem_cons_self _ _
          have hru : (r.URL == u) = true := by simp [hur]
          simp only [hu', if_pos, if_neg hu, hru]
          omega
        · have hne : ¬ r.URL = u := fun he => hur he.symm
          simp only [List.map_cons, List.count_cons]
          rw [ih (r.URL :: seen)]
          have hu' : ¬ u ∈ r.URL :: seen := by
            intro hmem
            rcases List.mem_cons.mp hmem with he | he
            · exact hur he
            · exact hu he
          simp [hu, hu', hne]

theorem dedupByURLAux_find? (seen : List GoStr) (l : List PrehrajResult) (u : GoStr)
    (hu : ¬ u ∈ seen) :
    (dedupByURLAux seen l).find? (fun r => r.URL == u) =
      l.find? (fun r => r.URL == u) := by
  induction l generalizing seen with
  | nil => simp [dedupByURLAux]
  | cons r rest ih =>
    simp only [dedupByURLAux]
    split
    next hseen =>
      have hne : (r.URL == u) = false := by
        simp only [beq_eq_false_iff_ne, ne_eq]
        exact fun he => hu (he ▸ hseen)
      rw [List.find?_cons_of_neg _ (by simp [hne])]
      exact ih seen hu
    next hseen =>
      by_cases hur : r.URL = u
      · rw [List.find?_cons_of_pos _ (by simp [hur]),
          List.find?_cons_of_pos _ (by simp [hur])]
      · rw [List.find?_cons_of_neg _ (by simp [hur]),
          List.find?_cons_of_neg _ (by simp [hur])]
        refine ih (r.URL :: seen) ?_
        intro hmem
        rcases List.mem_cons.mp hmem with he | he
        · exact hur he.symm
        · exact hu he

theorem dedupQueriesAux_eq_trimmed (seen : List GoStr) (l : List GoStr) :
    dedupQueriesAux seen l = dedupKeepFirst seen (l.map goTrimSpace) := by
  induction l generalizing seen with
  | nil => rfl
  | cons q rest ih =>
    simp only [dedupQueriesAux, List.map_cons, dedupKeepFirst]
    split
    · exact ih seen
    · rw [ih (goTrimSpace q :: seen)]

theorem dedupKeepFirst_not_mem_seen (seen : List GoStr) (l : List GoStr) :
    ∀ q ∈ dedupKeepFirst seen l, ¬ q ∈ seen := by
  induction l generalizing seen with
  | nil => simp [dedupKeepFirst]
  | cons a rest ih =>
    simp only [dedupKeepFirst]
    split
    next => exact ih seen
    next ha =>
      intro x hx
      rcases List.mem_cons.mp hx with he | hmem
      · subst he
        exact fun hxs => ha (Or.inl hxs)
      · intro hxs
        exact ih (a :: seen) x hmem (List.mem_cons_of_mem _ hxs)

theorem dedupKeepFirst_nodup (seen : List GoStr) (l : List GoStr) :
    (dedupKeepFirst seen l).Nodup := by
  induction l generalizing seen with
  | nil => simp [dedupKeepFirst]
  | cons a rest ih =>
    simp only [dedupKeepFirst]
    split
    next => exact ih seen
    next ha =>
      refine List.nodup_cons.mpr ⟨?_, ih (a :: seen)⟩
      intro hmem
      exact dedupKeepFirst_not_mem_seen (a :: seen) rest a hmem
        (List.mem_cons_self _ _)

theorem dedupKeepFirst_no_empty (seen : List GoStr) (l : List GoStr) :
    ¬ ([] : GoStr) ∈ dedupKeepFirst seen l := by
  induction l generalizing seen with
  | nil => simp [dedupKeepFirst]
  | cons a rest ih =>
    simp only [dedupKeepFirst]
    split
    next => exact ih seen
    next ha =>
      intro hmem
      rcases List.mem_cons.mp hmem with he | hmem'
      · exact ha (Or.inr he.symm)
      · exact ih (a :: seen) hmem'

theorem dedupKeepFirst_sublist (seen : List GoStr) (l : List GoStr) :
    List.Sublist (dedupKeepFirst seen l) l := by
  induction l generalizing seen with
  | nil => simp [dedupKeepFirst]
  | cons a rest ih =>
    simp only [dedupKeepFirst]
    split
    · exact List.Sublist.cons a (ih seen)
    · exact List.Sublist.cons₂ a (ih _)

theorem dedupKeepFirst_mem (seen : List GoStr) (l : List GoStr) (q : GoStr) :
    q ∈ l → ¬ q = [] → ¬ q ∈ seen → q ∈ dedupKeepFirst seen l := by
  induction l generalizing seen with
  | nil => intro hq; cases hq
  | cons a rest ih =>
    intro hq hne hs
    simp only [dedupKeepFirst]
    by_cases hqa : q = a
    · subst hqa
      rw [if_neg (by push_neg; exact ⟨hs, hne⟩)]
      exact List.mem_cons_self _ _
    · have hq' : q ∈ rest := by
        rcases List.mem_cons.mp hq with he | hmem
        · exact absurd he hqa
        · exact hmem
      split
      next => exact ih seen hq' hne hs
      next =>
        refine List.mem_cons_of_mem _ (ih (a :: seen) hq' hne ?_)
        intro hmem
        rcases List.mem_cons.mp hmem with he | hmem'
        · exact hqa he
        · exact hs hmem'

theorem streamLess_iff_lex (y : GoStr) (a b : Stream) :
    streamLess y a b = true ↔ rankLexBefore (rankKey y a) (rankKey y b) := by
  unfold streamLess rankKey rankLexBefore
  by_cases h1 : getRes a.Name a.Title = getRes b.Name b.Title <;>
    by_cases h2 : getStreamRes a.Name = getStreamRes b.Name <;>
      by_cases h3 : getSize a.Title = getSize b.Title <;>
        cases hyi : goContains a.Title y <;>
          cases hyj : goContains b.Title y <;>
            simp [h1, h2, h3, hyi, hyj]

/-! ## The claims -/

/-- Claim C3: the deduplication stage keys on the candidate's address by
exact string equality — the output is an order-preserving sublist of the
input holding, for each address occurring in the input, exactly one entry,
namely the first-encountered one (`find?` agrees with the input's). -/
theorem dedup_keeps_first_address_occurrence (l : List PrehrajResult) (u : GoStr) :
    List.Sublist (dedupByURL l) l ∧
    ((dedupByURL l).map PrehrajResult.URL).count u =
      min 1 ((l.map PrehrajResult.URL).count u) ∧
    (dedupByURL l).find? (fun r => r.URL == u) = l.find? (fun r => r.URL == u) := by
  refine ⟨dedupByURLAux_sublist [] l, ?_, dedupByURLAux_find? [] l u (by simp)⟩
  have h := dedupByURLAux_count [] l u
  simpa using h

/-- Claim C5: at most 25 unique candidates are submitted to the extraction
stage, and they are exactly the first up-to-25 entries, in first-seen
order, of the deduplicated relevant-candidate list. -/
theorem extraction_cap_twenty_five (low : Char → Char) (results : List PrehrajResult)
    (metaYear : GoStr) (metaNames : List GoStr) :
    (submittedForExtraction
        (dedupByURL (filterPrehrajResults low results metaYear metaNames))).length ≤ 25 ∧
    submittedForExtraction (dedupByURL (filterPrehrajResults low results metaYear metaNames)) =
      (dedupByURL (filterPrehrajResults low results metaYear metaNames)).take 25 ∧
    submittedForExtraction (dedupByURL (filterPrehrajResults low results metaYear metaNames)) ++
        (dedupByURL (filterPrehrajResults low results metaYear metaNames)).drop
          (extractionLimit (dedupByURL (filterPrehrajResults low results metaYear metaNames))) =
      dedupByURL (filterPrehrajResults low results metaYear metaNames) := by
  refine ⟨?_, ?_, List.take_append_drop _ _⟩
  · simp only [submittedForExtraction, extractionLimit, List.length_take]
    split
    next hlt => omega
    next => omega
  · simp only [submittedForExtraction, extractionLimit]
    split
    next hlt =>
      rw [List.take_length, List.take_of_length_le (Nat.le_of_lt hlt)]
    next => rfl

/-- Claim C1: the comparator orders by strict descending lexicographic
priority over (source resolution, stream-label resolution, size in
megabytes, year containment in the description); in particular a strictly
greater source resolution ranks before, regardless of the other keys. -/
theorem ranking_comparator_lexicographic (y : GoStr) (a b : Stream) :
    (streamLess y a b = true ↔ rankLexBefore (rankKey y a) (rankKey y b)) ∧
    (getRes a.Name a.Title > getRes b.Name b.Title →
      streamLess y a b = true ∧ streamLess y b a = false) := by
  refine ⟨streamLess_iff_lex y a b, fun hgt => ⟨?_, ?_⟩⟩
  · exact (streamLess_iff_lex y a b).mpr (Or.inl hgt)
  · rw [← Bool.not_eq_true]
    intro hcontra
    rcases (streamLess_iff_lex y b a).mp hcontra with hlt | ⟨heq, _⟩
    · exact absurd hgt (by simp only [rankKey] at hlt; omega)
    · exact absurd hgt (by simp only [rankKey] at heq; omega)

/-- Claim C6: per name variant the expander emits one query for the
applicable suffix case (suffix `" S{season:02}E{episode:02}"` when both
season and episode are present, otherwise none) and, when the year is
non-empty, additionally the with-year form (year fragment before the
suffix); the emitted output is that list trimmed, with empties and
later duplicates dropped. -/
theorem expander_emits_per_variant (tc : TitleContext) :
    finalQueries tc = specFormQueries tc ∧
    dedupedQueries tc = dedupKeepFirst [] ((specFormQueries tc).map goTrimSpace) := by
  have hform : finalQueries tc = specFormQueries tc := by
    unfold finalQueries specFormQueries
    congr 1
    funext q
    by_cases hy : tc.year = [] <;> simp [hy, seSuffix, yearsList]
  refine ⟨hform, ?_⟩
  rw [dedupedQueries, dedupQueriesAux_eq_trimmed, hform]

/-- Claim C7: the expander's final output holds no empty string and no two
equal strings (post-trim, first occurrence winning): it is a duplicate-free,
empty-free, order-preserving sublist of the trimmed emission list that
retains every non-empty trimmed query. -/
theorem expander_output_nonempty_nodup (tc : TitleContext) :
    ¬ ([] : GoStr) ∈ dedupedQueries tc ∧
    (dedupedQueries tc).Nodup ∧
    List.Sublist (dedupedQueries tc) ((finalQueries tc).map goTrimSpace) ∧
    ∀ q, q ∈ (finalQueries tc).map goTrimSpace → ¬ q = [] →
      q ∈ dedupedQueries tc := by
  rw [dedupedQueries, dedupQueriesAux_eq_trimmed]
  refine ⟨dedupKeepFirst_no_empty _ _, dedupKeepFirst_nodup _ _,
    dedupKeepFirst_sublist _ _, ?_⟩
  intro q hq hne
  exact dedupKeepFirst_mem [] _ q hq hne (by simp)

/-- Claim C8: the name-relevance containment check never rejects a
candidate — the filter's output is exactly the year-passing subsequence of
the input, in input order, for every normalization map and every context
name set. -/
theorem relevance_check_never_rejects (low low' : Char → Char)
    (results : List PrehrajResult) (metaYear : GoStr) (names names' : List GoStr) :
    filterPrehrajResults low results metaYear names =
      results.filter (fun res => yearKeep metaYear res.Title) ∧
    filterPrehrajResults low results metaYear names =
      filterPrehrajResults low' results metaYear names' := by
  refine ⟨filterPrehraj_eq_yearFilter low results metaYear names, ?_⟩
  rw [filterPrehraj_eq_yearFilter low results metaYear names,
    filterPrehraj_eq_yearFilter low' results metaYear names']

/-! ## Concrete fixtures for witnesses and counterexamples -/

/-- A candidate titled with a non-matching year token. -/
def cand2019 : PrehrajResult := ⟨str "Movie 2019", [], [], str "https://prehraj.to/a"⟩

/-- A candidate whose title carries no year token. -/
def candNoYear : PrehrajResult := ⟨str "Movie", [], [], str "https://prehraj.to/b"⟩

/-- A candidate matching the year 2024. -/
def demoCandidate : PrehrajResult :=
  ⟨str "Movie 2024", str "1:40", str "1.2 GB", str "https://prehraj.to/c"⟩

/-- A search collaborator always returning `demoCandidate`. -/
def demoSearch : GoStr → Option (List PrehrajResult) := fun _ => some [demoCandidate]

/-- An extraction collaborator always returning one labeled stream. -/
def demoExtract : GoStr → Option (List Stream) :=
  fun _ => some [⟨str "Prehraj.to 1080p", str "1080p", str "https://video/x"⟩]

/-- A TitleContext with an empty name but a non-empty year. -/
def emptyNameYearTC : TitleContext := ⟨[], [], str "2024", [], []⟩

/-- The fully empty TitleContext. -/
def emptyTC : TitleContext := ⟨[], [], [], [], []⟩

/-- Two stream descriptors tied on all four ranking keys but distinct. -/
def tiedStreamA : Stream :=
  ⟨str "Prehraj.to ⚡ Unknown", str "📂 f\n💾 • ⏱️ ", str "https://video/a"⟩

/-- The second tied descriptor, differing only in its address. -/
def tiedStreamB : Stream :=
  ⟨str "Prehraj.to ⚡ Unknown", str "📂 f\n💾 • ⏱️ ", str "https://video/b"⟩

/-! ## C4, C9, C2 -/

/-- Claim C4, amended: when the target year parses (`strconv.Atoi`) to a
positive integer, a candidate with year tokens is kept iff some token's
numeric value equals the target's, and a token-free candidate is always
kept — in input order, independent of the context names. -/
theorem year_filter_exact_when_target_positive (low : Char → Char)
    (results : List PrehrajResult) (metaYear : GoStr) (names : List GoStr)
    (h : 0 < targetYearOf metaYear) :
    filterPrehrajResults low results metaYear names =
      results.filter (fun res => yearKeep metaYear res.Title) ∧
    ∀ title : GoStr, yearKeep metaYear title = true ↔
      (yearTokens title = [] ∨
        ∃ tk ∈ yearTokens title, goAtoi tk = targetYearOf metaYear) := by
  refine ⟨filterPrehraj_eq_yearFilter low results metaYear names, ?_⟩
  intro title
  simp only [yearKeep, if_pos h]
  by_cases ht : yearTokens title = []
  · simp [ht]
  · simp [ht, List.any_eq_true]

/-- Witness for C4's theorem at the spec's own example: target year
`"2020"`, `"Movie 2019"` excluded, token-free `"Movie"` retained. -/
theorem year_filter_exact_witness :
    (filterPrehrajResults id [cand2019, candNoYear] (str "2020") [] =
      [cand2019, candNoYear].filter (fun res => yearKeep (str "2020") res.Title)) ∧
    filterPrehrajResults id [cand2019, candNoYear] (str "2020") [] = [candNoYear] :=
  ⟨(year_filter_exact_when_target_positive id [cand2019, candNoYear] (str "2020") []
    (by decide)).1, by decide⟩

/-- Counterexample to C4 as stated: the target year `"0"` is non-empty and
numeric, the candidate's title carries the token `"2019" ≠ "0"`, yet the
filter keeps it (the source guards the year check with `targetYear > 0`). -/
theorem year_filter_counterexample :
    ¬ str "0" = [] ∧ (str "0").all Char.isDigit = true ∧
    yearTokens cand2019.Title = [str "2019"] ∧
    ¬ goAtoi (str "2019") = goAtoi (str "0") ∧ ¬ str "2019" = str "0" ∧
    filterPrehrajResults id [cand2019] (str "0") [str "Movie"] = [cand2019] := by
  decide

/-- Claim C9, amended: a TitleContext with empty name (original name empty
or equal), empty year and no complete season/episode pair yields no usable
query, and the pipeline — a total function — returns the empty list for
every collaborator. -/
theorem degenerate_context_empty_result (search : GoStr → Option (List PrehrajResult))
    (extract : GoStr → Option (List Stream)) (low : Char → Char) (tc : TitleContext)
    (h1 : tc.name = []) (h2 : tc.originalName = [] ∨ tc.originalName = tc.name)
    (h3 : tc.year = []) (h4 : tc.season = [] ∨ tc.episode = []) :
    dedupedQueries tc = [] ∧ pipelinePreSort search extract low tc = [] := by
  have hnq : nameQueries tc = [[]] := by
    have hav : addVariations ([] : GoStr) = [[]] := by decide
    unfold nameQueries
    rcases h2 with h2 | h2
    · simp [h1, h2, hav]
    · simp [h1, h2.trans h1, hav]
  have hsfx : seSuffix tc.season tc.episode = [] := by
    unfold seSuffix
    rcases h4 with h4 | h4 <;> simp [h4]
  have hfq : finalQueries tc = [[]] := by
    simp [finalQueries, hnq, hsfx, yearsList, h3]
  have hq : dedupedQueries tc = [] := by
    rw [dedupedQueries, hfq]
    decide
  refine ⟨hq, ?_⟩
  simp [pipelinePreSort, hq, filterPrehrajResults, dedupByURL, dedupByURLAux,
    preSortStreams, submittedForExtraction, extractionLimit]

/-- Witness for C9's amended theorem at the empty TitleContext with
concrete, generous collaborators. -/
theorem degenerate_context_witness :
    dedupedQueries emptyTC = [] ∧
    pipelinePreSort demoSearch demoExtract id emptyTC = [] :=
  degenerate_context_empty_result demoSearch demoExtract id emptyTC rfl
    (Or.inl rfl) rfl (Or.inl rfl)

/-- Counterexample to C9 as stated: with an empty name but year `"2024"`
the expander emits the usable query `"2024"`, and the pipeline can return
a non-empty result set. -/
theorem empty_name_counterexample :
    emptyNameYearTC.name = [] ∧ emptyNameYearTC.originalName = [] ∧
    dedupedQueries emptyNameYearTC = [str "2024"] ∧
    ¬ pipelinePreSort demoSearch demoExtract id emptyNameYearTC = [] := by
  decide

/-- Claim C2 (supporting evidence for the code bug): two distinct
descriptors tied on all four ranking keys are indistinguishable to the
`sort.Slice` comparator — it returns `false` both ways — so their output
order is whatever Go's `sort.Slice` produces, and `sort.Slice` documents
that stability is not guaranteed (a stable result would need
`sort.SliceStable`). -/
theorem tied_streams_incomparable :
    rankKey (str "2024") tiedStreamA = rankKey (str "2024") tiedStreamB ∧
    ¬ tiedStreamA = tiedStreamB ∧
    streamLess (str "2024") tiedStreamA tiedStreamB = false ∧
    streamLess (str "2024") tiedStreamB tiedStreamA = false := by
  decide

/-! ## C10: idempotence of `normalizeStringForFilter` -/

theorem goReplaceAll_single (s : GoStr) (o n : Char) :
    goReplaceAll s [o] [n] = s.map (fun c => if c = o then n else c) := by
  induction s with
  | nil => rw [goReplaceAll_nil _ _ (by simp)]; rfl
  | cons c rest ih =>
    by_cases hoc : o = c
    · have hpre : [o].isPrefixOf (c :: rest) = true := by
        simp [List.isPrefixOf, hoc]
      rw [goReplaceAll_cons_pos c rest [o] [n] (by simp) hpre]
      simp [ih, hoc.symm]
    · have hpre : ¬ [o].isPrefixOf (c :: rest) = true := by
        simp [List.isPrefixOf, hoc]
      rw [goReplaceAll_cons_neg c rest [o] [n] (by simp) hpre]
      have hco : ¬ c = o := fun h => hoc h.symm
      simp [ih, hco]

/-- The rune map one pass of the whole replacement table amounts to. -/
def replCharOf (rs : List (Char × Char)) (c : Char) : Char :=
  rs.foldl (fun x pr => if x = pr.1 then pr.2 else x) c

theorem applyCharRepls_cons (pr : Char × Char) (rs : List (Char × Char)) (s : GoStr) :
    applyCharRepls (pr :: rs) s = applyCharRepls rs (goReplaceAll s [pr.1] [pr.2]) := rfl

theorem applyCharRepls_eq_map (rs : List (Char × Char)) (s : GoStr) :
    applyCharRepls rs s = s.map (replCharOf rs) := by
  induction rs generalizing s with
  | nil =>
    simp only [applyCharRepls, List.foldl_nil, replCharOf]
    exact (List.map_id' s).symm
  | cons pr rs ih =>
    rw [applyCharRepls_cons, goReplaceAll_single, ih, List.map_map]
    rfl

/-- The runes the replacement table writes: the fold's outputs (and the
separator space). Go's `strings.ToLower` fixes all of them. -/
def filterReplTargets : List Char :=
  ['a', 'c', 'd', 'e', 'i', 'n', 'o', 'r', 's', 't', 'u', 'y', 'z', ' ']

theorem replChar_olds :
    ∀ c ∈ filterRepls.map Prod.fst, replCharOf filterRepls c ∈ filterReplTargets := by
  decide

theorem replChar_targets_fixed :
    ∀ c ∈ filterReplTargets, replCharOf filterRepls c = c := by
  decide

theorem replChar_fix (c : Char) (hc : ¬ c ∈ filterRepls.map Prod.fst) :
    replCharOf filterRepls c = c := by
  simp only [filterRepls, List.map_cons, List.map_nil, List.mem_cons,
    List.not_mem_nil, or_false, not_or] at hc
  obtain ⟨h1, h2, h3, h4, h5, h6, h7, h8, h9, h10, h11, h12, h13, h14, h15,
    h16, h17, h18, h19⟩ := hc
  simp only [replCharOf, filterRepls, List.foldl_cons, List.foldl_nil,
    if_neg h1, if_neg h2, if_neg h3, if_neg h4, if_neg h5, if_neg h6,
    if_neg h7, if_neg h8, if_neg h9, if_neg h10, if_neg h11, if_neg h12,
    if_neg h13, if_neg h14, if_neg h15, if_neg h16, if_neg h17, if_neg h18,
    if_neg h19]

theorem replChar_cases (c : Char) :
    replCharOf filterRepls c = c ∨ replCharOf filterRepls c ∈ filterReplTargets := by
  by_cases hc : c ∈ filterRepls.map Prod.fst
  · exact Or.inr (replChar_olds c hc)
  · exact Or.inl (replChar_fix c hc)

theorem replChar_idem (c : Char) :
    replCharOf filterRepls (replCharOf filterRepls c) = replCharOf filterRepls c := by
  rcases replChar_cases c with h | h
  · rw [h]
    exact h
  · exact replChar_targets_fixed _ h

theorem map_fixed (f : Char → Char) (l : GoStr) (h : ∀ x ∈ l, f x = x) :
    l.map f = l := by
  induction l with
  | nil => rfl
  | cons c rest ih =>
    simp only [List.map_cons]
    rw [h c (List.mem_cons_self _ _), ih (fun x hx => h x (List.mem_cons_of_mem _ hx))]

theorem takeWhile_all (p : Char → Bool) (l : GoStr) (h : ∀ x ∈ l, p x = true) :
    l.takeWhile p = l := by
  induction l with
  | nil => rfl
  | cons c rest ih =>
    rw [List.takeWhile_cons, if_pos (h c (List.mem_cons_self _ _)),
      ih (fun x hx => h x (List.mem_cons_of_mem _ hx))]

theorem dropWhile_all (p : Char → Bool) (l : GoStr) (h : ∀ x ∈ l, p x = true) :
    l.dropWhile p = [] := by
  induction l with
  | nil => rfl
  | cons c rest ih =>
    rw [List.dropWhile_cons, if_pos (h c (List.mem_cons_self _ _))]
    exact ih (fun x hx => h x (List.mem_cons_of_mem _ hx))

theorem takeWhile_append_stop (p : Char → Bool) (w t : GoStr) (c : Char)
    (hw : ∀ x ∈ w, p x = true) (hc : p c = false) :
    (w ++ c :: t).takeWhile p = w := by
  induction w with
  | nil => simp [List.takeWhile_cons, hc]
  | cons a w' ih =>
    simp only [List.cons_append, List.takeWhile_cons,
      if_pos (hw a (List.mem_cons_self _ _))]
    rw [ih (fun x hx => hw x (List.mem_cons_of_mem _ hx))]

theorem dropWhile_append_stop (p : Char → Bool) (w t : GoStr) (c : Char)
    (hw : ∀ x ∈ w, p x = true) (hc : p c = false) :
    (w ++ c :: t).dropWhile p = c :: t := by
  induction w with
  | nil => simp [List.dropWhile_cons, hc]
  | cons a w' ih =>
    simp only [List.cons_append, List.dropWhile_cons,
      if_pos (hw a (List.mem_cons_self _ _))]
    exact ih (fun x hx => hw x (List.mem_cons_of_mem _ hx))

theorem mem_takeWhile (p : Char → Bool) (l : GoStr) (x : Char) :
    x ∈ l.takeWhile p → x ∈ l ∧ p x = true := by
  induction l with
  | nil => intro hx; cases hx
  | cons a l' ih =>
    rw [List.takeWhile_cons]
    split
    next ha =>
      intro hx
      rcases List.mem_cons.mp hx with rfl | hx'
      · exact ⟨List.mem_cons_self _ _, ha⟩
      · rcases ih hx' with ⟨hm, hp⟩
        exact ⟨List.mem_cons_of_mem _ hm, hp⟩
    next => intro hx; cases hx

theorem mem_dropWhile (p : Char → Bool) (l : GoStr) (x : Char) :
    x ∈ l.dropWhile p → x ∈ l := by
  induction l with
  | nil => intro hx; cases hx
  | cons a l' ih =>
    rw [List.dropWhile_cons]
    split
    · intro hx; exact List.mem_cons_of_mem _ (ih hx)
    · intro hx; exact hx

theorem goFieldsAux_chars (fuel : Nat) (t : GoStr) :
    ∀ w ∈ goFieldsAux fuel t, ∀ x ∈ w, x ∈ t := by
  induction fuel, t using goFieldsAux.induct with
  | case1 fuel => simp [goFieldsAux]
  | case2 t ht =>
    cases t with
    | nil => simp [goFieldsAux]
    | cons c rest => simp [goFieldsAux]
  | case3 fuel c rest hc ih =>
    intro w hw x hx
    simp only [goFieldsAux, if_pos hc] at hw
    exact List.mem_cons_of_mem _ (ih w hw x hx)
  | case4 fuel c rest hc ih =>
    intro w hw x hx
    simp only [goFieldsAux, if_neg hc] at hw
    rcases List.mem_cons.mp hw with rfl | hw'
    · rcases List.mem_cons.mp hx with rfl | hx'
      · exact List.mem_cons_self _ _
      · exact List.mem_cons_of_mem _ (mem_takeWhile _ _ _ hx').1
    · exact List.mem_cons_of_mem _ (mem_dropWhile _ _ x (ih w hw' x hx))

theorem goFieldsAux_spec (fuel : Nat) (t : GoStr) :
    ∀ w ∈ goFieldsAux fuel t, ¬ w = [] ∧ ∀ x ∈ w, isGoSpace x = false := by
  induction fuel, t using goFieldsAux.induct with
  | case1 fuel => simp [goFieldsAux]
  | case2 t ht =>
    cases t with
    | nil => simp [goFieldsAux]
    | cons c rest => simp [goFieldsAux]
  | case3 fuel c rest hc ih =>
    intro w hw
    simp only [goFieldsAux, if_pos hc] at hw
    exact ih w hw
  | case4 fuel c rest hc ih =>
    intro w hw
    simp only [goFieldsAux, if_neg hc] at hw
    rcases List.mem_cons.mp hw with rfl | hw'
    · refine ⟨by simp, ?_⟩
      intro x hx
      rcases List.mem_cons.mp hx with rfl | hx'
      · exact Bool.of_not_eq_true hc
      · have := (mem_takeWhile _ _ _ hx').2
        simpa using this
    · exact ih w hw'

theorem goFields_chars (t : GoStr) : ∀ w ∈ goFields t, ∀ x ∈ w, x ∈ t :=
  goFieldsAux_chars t.length t

theorem goFields_spec (t : GoStr) :
    ∀ w ∈ goFields t, ¬ w = [] ∧ ∀ x ∈ w, isGoSpace x = false :=
  goFieldsAux_spec t.length t

theorem goJoin_chars (ws : List GoStr) :
    ∀ x ∈ goJoin (str " ") ws, x = ' ' ∨ ∃ w ∈ ws, x ∈ w := by
  induction ws with
  | nil => simp [goJoin]
  | cons w rest ih =>
    cases rest with
    | nil =>
      intro x hx
      exact Or.inr ⟨w, by simp, hx⟩
    | cons v rest' =>
      intro x hx
      simp only [goJoin] at hx
      rcases List.mem_append.mp hx with hx' | hx'
      · rcases List.mem_append.mp hx' with hx'' | hx''
        · exact Or.inr ⟨w, List.mem_cons_self _ _, hx''⟩
        · left
          simpa [str] using hx''
      · rcases ih x hx' with h | ⟨w', hw', hxw'⟩
        · exact Or.inl h
        · exact Or.inr ⟨w', List.mem_cons_of_mem _ hw', hxw'⟩

theorem fields_single_word (c : Char) (w' : GoStr)
    (hns : ∀ x ∈ c :: w', isGoSpace x = false) :
    goFields (c :: w') = [c :: w'] := by
  rw [goFields_cons_word c w' (hns c (List.mem_cons_self _ _))]
  rw [takeWhile_all _ w'
    (fun x hx => by simp [hns x (List.mem_cons_of_mem _ hx)])]
  rw [dropWhile_all _ w'
    (fun x hx => by simp [hns x (List.mem_cons_of_mem _ hx)])]
  rw [goFields_nil]

theorem fields_word_append (c : Char) (w' t : GoStr)
    (hns : ∀ x ∈ c :: w', isGoSpace x = false) :
    goFields ((c :: w') ++ ' ' :: t) = (c :: w') :: goFields t := by
  have hstep : (c :: w') ++ ' ' :: t = c :: (w' ++ ' ' :: t) := rfl
  rw [hstep, goFields_cons_word c _ (hns c (List.mem_cons_self _ _))]
  rw [takeWhile_append_stop _ w' t ' '
    (fun x hx => by simp [hns x (List.mem_cons_of_mem _ hx)]) (by decide)]
  rw [dropWhile_append_stop _ w' t ' '
    (fun x hx => by simp [hns x (List.mem_cons_of_mem _ hx)]) (by decide)]
  rw [goFields_cons_space ' ' t (by decide)]

theorem fields_join (ws : List GoStr)
    (h : ∀ w ∈ ws, ¬ w = [] ∧ ∀ x ∈ w, isGoSpace x = false) :
    goFields (goJoin (str " ") ws) = ws := by
  induction ws with
  | nil => rfl
  | cons w rest ih =>
    obtain ⟨hne, hns⟩ := h w (List.mem_cons_self _ _)
    obtain ⟨c, w', rfl⟩ : ∃ c w', w = c :: w' := by
      cases w with
      | nil => exact absurd rfl hne
      | cons c w' => exact ⟨c, w', rfl⟩
    cases rest with
    | nil => exact fields_single_word c w' hns
    | cons v rest' =>
      have hshape : goJoin (str " ") ((c :: w') :: v :: rest') =
          (c :: w') ++ ' ' :: goJoin (str " ") (v :: rest') := by
        show ((c :: w') ++ str " ") ++ goJoin (str " ") (v :: rest') =
          (c :: w') ++ ' ' :: goJoin (str " ") (v :: rest')
        rw [List.append_assoc]
        rfl
      rw [hshape, fields_word_append c w' _ hns,
        ih (fun u hu => h u (List.mem_cons_of_mem _ hu))]

set_option maxHeartbeats 1000000 in
/-- Claim C10: `normalizeStringForFilter` is idempotent, for every rune
map `low` that is idempotent and fixes the table's output runes and the
space — both facts hold of Go's `strings.ToLower` (Unicode simple
lowercasing is idempotent and fixes ASCII lowercase letters and the
space). -/
theorem normalizeStringForFilter_idempotent (low : Char → Char)
    (hlow : ∀ c, low (low c) = low c)
    (hfix : ∀ c ∈ filterReplTargets, low c = c) (s : GoStr) :
    normalizeStringForFilter low (normalizeStringForFilter low s) =
      normalizeStringForFilter low s := by
  have hchars : ∀ x ∈ normalizeStringForFilter low s,
      low x = x ∧ replCharOf filterRepls x = x := by
    intro x hx
    rw [normalizeStringForFilter] at hx
    rcases goJoin_chars _ x hx with rfl | ⟨w, hw, hxw⟩
    · exact ⟨hfix ' ' (by decide), by decide⟩
    · have hx' : x ∈ applyCharRepls filterRepls (s.map low) :=
        goFields_chars _ w hw x hxw
      rw [applyCharRepls_eq_map, List.map_map] at hx'
      obtain ⟨c, _, hxc⟩ := List.mem_map.mp hx'
      rw [← hxc]
      simp only [Function.comp_apply]
      refine ⟨?_, replChar_idem (low c)⟩
      rcases replChar_cases (low c) with h | h
      · rw [h]
        exact hlow c
      · exact hfix _ h
  conv_lhs => rw [normalizeStringForFilter]
  rw [map_fixed low _ (fun x hx => (hchars x hx).1)]
  rw [applyCharRepls_eq_map,
    map_fixed _ _ (fun x hx => (hchars x hx).2)]
  conv_lhs =>
    rw [normalizeStringForFilter]
  rw [fields_join _ (fun w hw => goFields_spec _ w hw)]
  rfl

/-- Witness for C10's theorem at the identity rune map (which satisfies
both hypotheses) and a concrete diacritic-laden string. -/
theorem normalize_filter_idempotent_witness :
    normalizeStringForFilter id
        (normalizeStringForFilter id (str "žluťoučký _ kůň--2019::x")) =
      normalizeStringForFilter id (str "žluťoučký _ kůň--2019::x") :=
  normalizeStringForFilter_idempotent id (fun _ => rfl) (fun _ _ => rfl)
    (str "žluťoučký _ kůň--2019::x")

end EzStremio
